import Mathlib

/-!
# Verification of the gorbac RBAC engine (`src/rbac.go`)

A shallow embedding of the role-based access control engine in `rbac.go`.

The Go engine keeps two maps guarded by one reader/writer lock:
`roles : map[K]Role[K]` and `parents : map[K]map[K]struct{}`.  We embed
the two maps as association lists (Go maps never hold a duplicate key;
every map mutation below preserves that shape) and each exported method
as a pure state-passing function.  A Go method that mutates the receiver
and returns an `error` becomes a function returning
`Option RBACError × RBAC K P`: the second component is the state of the
receiver after the call, so "mutation failed and left the state alone"
is the provable proposition that the returned state equals the input.

The recursive resolution helper `recursionCheck` has no cycle guard in
the source and genuinely diverges on cyclic parent graphs, so it is
embedded with explicit fuel; the value `none` marks fuel exhaustion
(possible divergence), never an answer.  Theorems below show the result
is stable in the fuel and defined whenever the parent graph reachable
from the queried role is acyclic (accessibility of the queried id under
the parent-edge relation).

The file `role.go` defining `Role`, `Roles` and `Permission` is not part
of the sources under verification; the engine uses a role only through
its `ID` field and its `Permit` method ("does this role directly grant
this permission?", spec §3), so a role is embedded as exactly that
interface: an identifier together with an opaque Boolean predicate over
permissions.
-/

namespace Gorbac

/-- The two domain errors of the engine: `ErrRoleNotExist` and
`ErrRoleExist` in the source. -/
inductive RBACError where
  | roleNotExist
  | roleExist
deriving DecidableEq, Repr

/-- A role as the engine sees it (`role.go` is not among the sources):
an identifier plus the direct-grant test `Permit` the engine calls.
The spec (§3) requires of a role only "does this role directly grant
permission P?", so `Permit` is kept opaque. -/
structure Role (K P : Type) where
  ID : K
  Permit : P → Bool

section Maps

variable {K : Type} [DecidableEq K] {V : Type}

/-- Lookup in an association list standing for a Go map. -/
def mapLookup : List (K × V) → K → Option V
  | [], _ => none
  | (k', v) :: rest, k => if k' = k then some v else mapLookup rest k

/-- Go map assignment `m[k] = v`: replace the binding if present,
otherwise append it. -/
def mapInsert : List (K × V) → K → V → List (K × V)
  | [], k, v => [(k, v)]
  | (k', v') :: rest, k, v =>
      if k' = k then (k, v) :: rest else (k', v') :: mapInsert rest k v

/-- Go `delete(m, k)`: drop the binding for `k`. -/
def mapErase : List (K × V) → K → List (K × V)
  | [], _ => []
  | (k', v) :: rest, k =>
      if k' = k then mapErase rest k else (k', v) :: mapErase rest k

/-- Adding a key to a Go set `map[K]struct{}`. -/
def setInsert (s : List K) (k : K) : List K :=
  if k ∈ s then s else s ++ [k]

/-- Removing a key from a Go set `map[K]struct{}`. -/
def setErase : List K → K → List K
  | [], _ => []
  | x :: rest, k => if x = k then setErase rest k else x :: setErase rest k

end Maps

/-- The engine state: the role store and the parent graph (the
`sync.RWMutex` guards concurrent access in Go and has no counterpart in
this sequential embedding; which lock each method takes is recorded
separately in `lockOf`). -/
structure RBAC (K P : Type) where
  roles : List (K × Role K P)
  parents : List (K × List K)

/-- The assertion hook type `AssertionFunc[K]`: a predicate over the
engine, a role id and a permission.  A Go `nil` hook is `Option.none`
at use sites. -/
def AssertionFunc (K P : Type) := RBAC K P → K → P → Bool

namespace RBAC

variable {K P : Type} [DecidableEq K]

/-- `New` returns an empty engine. -/
def New : RBAC K P := ⟨[], []⟩

/-- Does the role store hold `id`?  (`_, ok := rbac.roles[id]` in Go.) -/
def present (rbac : RBAC K P) (id : K) : Bool :=
  (mapLookup rbac.roles id).isSome

/-- The parent set of `id`; an absent bucket reads as the empty set,
exactly as ranging over a missing Go map entry visits nothing. -/
def parentsOf (rbac : RBAC K P) (id : K) : List K :=
  (mapLookup rbac.parents id).getD []

/-- `SetParents(id, parents)`: validate `id` and every parent against
the role store, then union the parents into `id`'s bucket (creating it
if absent).  Validation happens in full before the first insertion. -/
def SetParents (rbac : RBAC K P) (id : K) (ps : List K) :
    Option RBACError × RBAC K P :=
  if (mapLookup rbac.roles id).isNone then
    (some .roleNotExist, rbac)
  else if ps.any (fun parent => (mapLookup rbac.roles parent).isNone) then
    (some .roleNotExist, rbac)
  else
    (none,
      { rbac with
          parents := mapInsert rbac.parents id
            (ps.foldl setInsert ((mapLookup rbac.parents id).getD [])) })

/-- `GetParents(id)`: error if `id` is not a role; a missing bucket
yields the nil slice, otherwise the bucket's keys. -/
def GetParents (rbac : RBAC K P) (id : K) : Except RBACError (List K) :=
  if (mapLookup rbac.roles id).isNone then
    .error .roleNotExist
  else
    match mapLookup rbac.parents id with
    | none => .ok []
    | some ids => .ok ids

/-- `SetParent(id, parent)`: validate both ids, then add the single
edge (creating the bucket if absent). -/
def SetParent (rbac : RBAC K P) (id parent : K) :
    Option RBACError × RBAC K P :=
  if (mapLookup rbac.roles id).isNone then
    (some .roleNotExist, rbac)
  else if (mapLookup rbac.roles parent).isNone then
    (some .roleNotExist, rbac)
  else
    (none,
      { rbac with
          parents := mapInsert rbac.parents id
            (setInsert ((mapLookup rbac.parents id).getD []) parent) })

/-- `RemoveParent(id, parent)`: validate both ids, then delete the edge
from `id`'s bucket; deleting from an absent bucket is a no-op, as Go's
`delete` on a nil map. -/
def RemoveParent (rbac : RBAC K P) (id parent : K) :
    Option RBACError × RBAC K P :=
  if (mapLookup rbac.roles id).isNone then
    (some .roleNotExist, rbac)
  else if (mapLookup rbac.roles parent).isNone then
    (some .roleNotExist, rbac)
  else
    match mapLookup rbac.parents id with
    | none => (none, rbac)
    | some bucket =>
        (none, { rbac with parents := mapInsert rbac.parents id (setErase bucket parent) })

/-- `Add(r)`: insert the role unless its id is taken. -/
def Add (rbac : RBAC K P) (r : Role K P) : Option RBACError × RBAC K P :=
  if (mapLookup rbac.roles r.ID).isNone then
    (none, { rbac with roles := mapInsert rbac.roles r.ID r })
  else
    (some .roleExist, rbac)

/-- The scrub loop of `Remove`: drop `id`'s own bucket and delete `id`
from every other bucket. -/
def scrub : List (K × List K) → K → List (K × List K)
  | [], _ => []
  | (rid, ps) :: rest, id =>
      if rid = id then scrub rest id
      else (rid, setErase ps id) :: scrub rest id

/-- `Remove(id)`: error if absent, otherwise delete the role and scrub
the whole parent graph in the same step. -/
def Remove (rbac : RBAC K P) (id : K) : Option RBACError × RBAC K P :=
  if (mapLookup rbac.roles id).isSome then
    (none, { roles := mapErase rbac.roles id, parents := scrub rbac.parents id })
  else
    (some .roleNotExist, rbac)

/-- `Get(id)`: the role and a snapshot of its parent ids, or
`RoleNotFound`. -/
def Get (rbac : RBAC K P) (id : K) : Except RBACError (Role K P × List K) :=
  match mapLookup rbac.roles id with
  | some r => .ok (r, (mapLookup rbac.parents id).getD [])
  | none => .error .roleNotExist

/-- The `for pID := range parents` loop inside `recursionCheck`:
recurse (through `check`, the resolution at one fuel less) into each
parent present in the role store, granting at the first grant and
propagating a fuel exhaustion. -/
def recursionCheckLoop (rbac : RBAC K P) (check : K → Option Bool) :
    List K → Option Bool
  | [] => some false
  | pid :: rest =>
      if rbac.present pid then
        match check pid with
        | some true => some true
        | some false => recursionCheckLoop rbac check rest
        | none => none
      else recursionCheckLoop rbac check rest

/-- The recursive resolution helper `recursionCheck(id, p)`, with
explicit fuel (the source has no cycle guard; `none` is fuel
exhaustion).  Look the role up (absent denies), test its direct grant,
else walk the parent bucket with the recursion one fuel lower. -/
def recursionCheck (rbac : RBAC K P) (p : P) : Nat → K → Option Bool
  | 0 => fun _ => none
  | n + 1 => fun id =>
      match mapLookup rbac.roles id with
      | none => some false
      | some role =>
          if role.Permit p then some true
          else recursionCheckLoop rbac (recursionCheck rbac p n) (rbac.parentsOf id)

/-- The unexported `isGranted`: evaluate a supplied assertion hook once;
a `false` hook vetoes, otherwise resolve structurally.  The hook is not
a parameter of `recursionCheck`, so it cannot be consulted again at any
recursion depth. -/
def isGranted (rbac : RBAC K P) (fuel : Nat) (id : K) (p : P)
    (assert : Option (AssertionFunc K P)) : Option Bool :=
  match assert with
  | some f => if f rbac id p then recursionCheck rbac p fuel id else some false
  | none => recursionCheck rbac p fuel id

/-- `IsGranted`: take the read lock (a no-op here) and delegate to
`isGranted`. -/
def IsGranted (rbac : RBAC K P) (fuel : Nat) (id : K) (p : P)
    (assert : Option (AssertionFunc K P)) : Option Bool :=
  rbac.isGranted fuel id p assert

/-- One parent-graph step as the recursion takes it: from a role present
in the store to a parent listed in its bucket and itself present. -/
def edge (rbac : RBAC K P) (a b : K) : Prop :=
  rbac.present a = true ∧ b ∈ rbac.parentsOf a ∧ rbac.present b = true

instance (rbac : RBAC K P) (a b : K) : Decidable (rbac.edge a b) := by
  unfold edge; infer_instance

/-- The specification-side grant relation: some role reachable from `id`
through parent edges, every role on the path present in the store,
directly grants `p`. -/
inductive Grants (rbac : RBAC K P) (p : P) : K → Prop where
  | direct (id : K) (r : Role K P) :
      mapLookup rbac.roles id = some r → r.Permit p = true → Grants rbac p id
  | parent (id : K) (r : Role K P) (pid : K) :
      mapLookup rbac.roles id = some r → pid ∈ rbac.parentsOf id →
      Grants rbac p pid → Grants rbac p id

/-- The implicit closure invariant of the engine: every role identifier
appearing in the parent graph — as a bucket key or as a member of any
bucket — is present in the role store. -/
def Inv (rbac : RBAC K P) : Prop :=
  ∀ e ∈ rbac.parents, rbac.present e.1 = true ∧ ∀ q ∈ e.2, rbac.present q = true

end RBAC

/-- The two modes of the engine's `sync.RWMutex`. -/
inductive LockKind where
  | read
  | write
deriving DecidableEq

/-- The exported operations of the engine. -/
inductive OpName where
  | add
  | remove
  | setParents
  | setParent
  | removeParent
  | getParents
  | get
  | isGranted
deriving DecidableEq

/-- Which lock each exported method acquires for its whole duration,
transcribed from the source: `Add`, `Remove`, `SetParents`, `SetParent`
and `RemoveParent` call `mutex.Lock()`; `Get` and `IsGranted` call
`mutex.RLock()`; `GetParents` also calls `mutex.Lock()` — the exclusive
write lock — even though it only reads. -/
def lockOf : OpName → LockKind
  | .add => .write
  | .remove => .write
  | .setParents => .write
  | .setParent => .write
  | .removeParent => .write
  | .getParents => .write
  | .get => .read
  | .isGranted => .read

/-- A structural mutation of the engine, for reasoning over arbitrary
operation sequences (the read operations do not change the state). -/
inductive Action (K P : Type) where
  | add (r : Role K P)
  | remove (id : K)
  | setParents (id : K) (ps : List K)
  | setParent (id parent : K)
  | removeParent (id parent : K)

/-- Apply one mutation, keeping the resulting state whether or not the
call reported an error (an erroring call leaves the state as it was). -/
def applyAction {K P : Type} [DecidableEq K] (rbac : RBAC K P) :
    Action K P → RBAC K P
  | .add r => (rbac.Add r).2
  | .remove id => (rbac.Remove id).2
  | .setParents id ps => (rbac.SetParents id ps).2
  | .setParent id parent => (rbac.SetParent id parent).2
  | .removeParent id parent => (rbac.RemoveParent id parent).2

/-- The state reached from a freshly constructed engine by a sequence of
public operations. -/
def run {K P : Type} [DecidableEq K] (acts : List (Action K P)) : RBAC K P :=
  acts.foldl applyAction RBAC.New

/-- Sample role granting exactly permission `10` (for the closed witness
theorems). -/
def adminRole : Role Nat Nat := ⟨1, fun p => p == 10⟩

/-- Sample role granting nothing. -/
def editorRole : Role Nat Nat := ⟨2, fun _ => false⟩

/-- Sample role granting nothing, kept parentless. -/
def guestRole : Role Nat Nat := ⟨3, fun _ => false⟩

/-- Sample engine: roles 1, 2, 3; role 2 inherits from role 1; role 3 is
isolated. -/
def sampleEngine : RBAC Nat Nat :=
  ⟨[(1, adminRole), (2, editorRole), (3, guestRole)], [(2, [1])]⟩

/-! ## Association-list and set lemmas -/

section MapLemmas

variable {K : Type} [DecidableEq K] {V : Type}

theorem mapLookup_mapInsert_self (m : List (K × V)) (k : K) (v : V) :
    mapLookup (mapInsert m k v) k = some v := by
  induction m with
  | nil => simp [mapInsert, mapLookup]
  | cons e rest ih =>
      obtain ⟨k', v'⟩ := e
      by_cases h : k' = k <;> simp [mapInsert, mapLookup, h, ih]

theorem mapLookup_mapInsert_ne (m : List (K × V)) (k a : K) (v : V) (h : a ≠ k) :
    mapLookup (mapInsert m k v) a = mapLookup m a := by
  induction m with
  | nil => simp [mapInsert, mapLookup, Ne.symm h]
  | cons e rest ih =>
      obtain ⟨k', v'⟩ := e
      by_cases hk : k' = k
      · subst hk
        simp [mapInsert, mapLookup, Ne.symm h]
      · by_cases ha : k' = a <;> simp [mapInsert, mapLookup, hk, ha, ih, h]

theorem mapLookup_mapErase_self (m : List (K × V)) (k : K) :
    mapLookup (mapErase m k) k = none := by
  induction m with
  | nil => simp [mapErase, mapLookup]
  | cons e rest ih =>
      obtain ⟨k', v'⟩ := e
      by_cases h : k' = k <;> simp [mapErase, mapLookup, h, ih]

theorem mapLookup_mapErase_ne (m : List (K × V)) (k a : K) (h : a ≠ k) :
    mapLookup (mapErase m k) a = mapLookup m a := by
  induction m with
  | nil => simp [mapErase]
  | cons e rest ih =>
      obtain ⟨k', v'⟩ := e
      by_cases hk : k' = k
      · subst hk
        simp [mapErase, mapLookup, Ne.symm h, ih]
      · simp [mapErase, mapLookup, hk, ih]

theorem mapLookup_mem {m : List (K × V)} {k : K} {v : V}
    (h : mapLookup m k = some v) : (k, v) ∈ m := by
  induction m with
  | nil => simp [mapLookup] at h
  | cons e rest ih =>
      obtain ⟨k', v'⟩ := e
      by_cases hk : k' = k
      · subst hk
        simp [mapLookup] at h
        simp [h]
      · simp [mapLookup, hk] at h
        exact List.mem_cons_of_mem _ (ih h)

theorem mem_mapInsert {m : List (K × V)} {k : K} {v : V} {e : K × V}
    (h : e ∈ mapInsert m k v) : e = (k, v) ∨ e ∈ m := by
  induction m with
  | nil => simpa [mapInsert] using h
  | cons e' rest ih =>
      obtain ⟨k', v'⟩ := e'
      by_cases hk : k' = k
      · subst hk
        rcases (by simpa [mapInsert] using h : e = (k', v) ∨ e ∈ rest) with h1 | h1
        · exact Or.inl h1
        · exact Or.inr (List.mem_cons_of_mem _ h1)
      · rcases (by simpa [mapInsert, hk] using h : e = (k', v') ∨ e ∈ mapInsert rest k v) with h1 | h1
        · exact Or.inr (by simp [h1])
        · rcases ih h1 with h2 | h2
          · exact Or.inl h2
          · exact Or.inr (List.mem_cons_of_mem _ h2)

theorem mem_setInsert (s : List K) (k x : K) :
    x ∈ setInsert s k ↔ x ∈ s ∨ x = k := by
  by_cases h : k ∈ s
  · constructor
    · intro hx
      exact Or.inl (by simpa [setInsert, h] using hx)
    · intro hx
      rcases hx with hx | hx
      · simpa [setInsert, h] using hx
      · subst hx; simp [setInsert, h]
  · simp [setInsert, h]

theorem mem_setErase (s : List K) (k x : K) :
    x ∈ setErase s k ↔ x ∈ s ∧ x ≠ k := by
  induction s with
  | nil => simp [setErase]
  | cons y rest ih =>
      by_cases h : y = k
      · subst h
        simp [setErase, ih]
        intro hx h'
        exact absurd h' hx
      · by_cases hx : x = y
        · subst hx
          simp [setErase, h, ih]
        · simp [setErase, h, hx, ih]

theorem mem_foldl_setInsert (l : List K) (s : List K) (x : K) :
    x ∈ l.foldl setInsert s ↔ x ∈ s ∨ x ∈ l := by
  induction l generalizing s with
  | nil => simp
  | cons y rest ih =>
      simp only [List.foldl_cons, ih, mem_setInsert, List.mem_cons]
      constructor
      · rintro ((h | h) | h)
        · exact Or.inl h
        · exact Or.inr (Or.inl h)
        · exact Or.inr (Or.inr h)
      · rintro (h | h | h)
        · exact Or.inl (Or.inl h)
        · exact Or.inl (Or.inr h)
        · exact Or.inr h

end MapLemmas

namespace RBAC

variable {K P : Type} [DecidableEq K]

theorem mapLookup_scrub_self (m : List (K × List K)) (id : K) :
    mapLookup (scrub m id) id = none := by
  induction m with
  | nil => simp [scrub, mapLookup]
  | cons e rest ih =>
      obtain ⟨rid, ps⟩ := e
      by_cases h : rid = id <;> simp [scrub, mapLookup, h, ih]

theorem mapLookup_scrub_ne (m : List (K × List K)) (id a : K) (h : a ≠ id) :
    mapLookup (scrub m id) a = (mapLookup m a).map (fun ps => setErase ps id) := by
  induction m with
  | nil => simp [scrub, mapLookup]
  | cons e rest ih =>
      obtain ⟨rid, ps⟩ := e
      by_cases hr : rid = id
      · subst hr
        simp [scrub, mapLookup, Ne.symm h, ih]
      · by_cases ha : rid = a <;> simp [scrub, mapLookup, hr, ha, ih, h]

theorem mem_scrub {m : List (K × List K)} {id : K} {e : K × List K}
    (h : e ∈ scrub m id) :
    ∃ e' ∈ m, e'.1 ≠ id ∧ e = (e'.1, setErase e'.2 id) := by
  induction m with
  | nil => simp [scrub] at h
  | cons f rest ih =>
      obtain ⟨rid, ps⟩ := f
      by_cases hr : rid = id
      · subst hr
        rcases ih (by simpa [scrub] using h) with ⟨e', he', h1, h2⟩
        exact ⟨e', List.mem_cons_of_mem _ he', h1, h2⟩
      · rcases (by simpa [scrub, hr] using h :
            e = (rid, setErase ps id) ∨ e ∈ scrub rest id) with h1 | h1
        · exact ⟨(rid, ps), by simp, hr, h1⟩
        · rcases ih h1 with ⟨e', he', h2, h3⟩
          exact ⟨e', List.mem_cons_of_mem _ he', h2, h3⟩

/-! ## Unfolding equations for the fuelled resolution -/

theorem recursionCheck_zero (rbac : RBAC K P) (p : P) (id : K) :
    recursionCheck rbac p 0 id = none := rfl

theorem recursionCheck_succ (rbac : RBAC K P) (p : P) (n : Nat) (id : K) :
    recursionCheck rbac p (n + 1) id =
      match mapLookup rbac.roles id with
      | none => some false
      | some role =>
          if role.Permit p then some true
          else recursionCheckLoop rbac (recursionCheck rbac p n) (rbac.parentsOf id) := rfl

theorem recursionCheckLoop_nil (rbac : RBAC K P) (check : K → Option Bool) :
    recursionCheckLoop rbac check [] = some false := rfl

theorem recursionCheckLoop_cons (rbac : RBAC K P) (check : K → Option Bool)
    (pid : K) (rest : List K) :
    recursionCheckLoop rbac check (pid :: rest) =
      if rbac.present pid then
        match check pid with
        | some true => some true
        | some false => recursionCheckLoop rbac check rest
        | none => none
      else recursionCheckLoop rbac check rest := rfl

/-! ## Fuel monotonicity -/

theorem recursionCheckLoop_mono_of (rbac : RBAC K P)
    {check check' : K → Option Bool}
    (hP : ∀ id b, check id = some b → check' id = some b) :
    ∀ l b, recursionCheckLoop rbac check l = some b →
      recursionCheckLoop rbac check' l = some b := by
  intro l
  induction l with
  | nil => intro b h; simpa [recursionCheckLoop_nil] using h
  | cons pid rest ih =>
      intro b h
      rw [recursionCheckLoop_cons] at h
      rw [recursionCheckLoop_cons]
      by_cases hp : rbac.present pid
      · rw [if_pos hp] at h
        rw [if_pos hp]
        cases hrc : check pid with
        | none => rw [hrc] at h; simp at h
        | some bb =>
            rw [hrc] at h
            rw [hP pid bb hrc]
            cases bb with
            | true => simpa using h
            | false => simpa using ih b (by simpa using h)
      · rw [if_neg hp] at h
        rw [if_neg hp]
        exact ih b h

theorem recursionCheck_mono_succ (rbac : RBAC K P) (p : P) :
    ∀ n id b, recursionCheck rbac p n id = some b →
      recursionCheck rbac p (n + 1) id = some b := by
  intro n
  induction n with
  | zero => intro id b h; rw [recursionCheck_zero] at h; exact absurd h (by simp)
  | succ n ih =>
      intro id b h
      rw [recursionCheck_succ] at h
      rw [recursionCheck_succ]
      cases hl : mapLookup rbac.roles id with
      | none => rw [hl] at h; simpa using h
      | some r =>
          rw [hl] at h
          by_cases hperm : r.Permit p = true
          · simp only [hperm, if_true] at h ⊢; exact h
          · simp only [Bool.not_eq_true] at hperm
            simp only [hperm, Bool.false_eq_true, if_false] at h ⊢
            exact recursionCheckLoop_mono_of rbac (fun id b => ih id b) _ b h

theorem recursionCheck_mono_le (rbac : RBAC K P) (p : P) {n m : Nat}
    (hnm : n ≤ m) {id : K} {b : Bool}
    (h : recursionCheck rbac p n id = some b) :
    recursionCheck rbac p m id = some b := by
  induction m with
  | zero =>
      have : n = 0 := Nat.le_zero.mp hnm
      subst this; exact h
  | succ m ih =>
      rcases Nat.lt_or_ge n (m + 1) with hlt | hge
      · exact recursionCheck_mono_succ rbac p m id b (ih (Nat.lt_succ_iff.mp hlt))
      · have : n = m + 1 := Nat.le_antisymm hnm hge
        subst this; exact h

/-! ## Soundness: a granted result yields a reachable granting role -/

theorem recursionCheckLoop_sound_of (rbac : RBAC K P) (p : P)
    {check : K → Option Bool}
    (hS : ∀ id, check id = some true → Grants rbac p id) :
    ∀ l, recursionCheckLoop rbac check l = some true →
      ∃ pid ∈ l, Grants rbac p pid := by
  intro l
  induction l with
  | nil => intro h; rw [recursionCheckLoop_nil] at h; exact absurd h (by simp)
  | cons pid rest ih =>
      intro h
      rw [recursionCheckLoop_cons] at h
      by_cases hp : rbac.present pid
      · rw [if_pos hp] at h
        cases hrc : check pid with
        | none => rw [hrc] at h; exact absurd h (by simp)
        | some bb =>
            rw [hrc] at h
            cases bb with
            | true => exact ⟨pid, by simp, hS pid hrc⟩
            | false =>
                obtain ⟨q, hq, hg⟩ := ih (by simpa using h)
                exact ⟨q, List.mem_cons_of_mem _ hq, hg⟩
      · rw [if_neg hp] at h
        obtain ⟨q, hq, hg⟩ := ih h
        exact ⟨q, List.mem_cons_of_mem _ hq, hg⟩

theorem recursionCheck_sound (rbac : RBAC K P) (p : P) :
    ∀ n id, recursionCheck rbac p n id = some true → Grants rbac p id := by
  intro n
  induction n with
  | zero => intro id h; rw [recursionCheck_zero] at h; exact absurd h (by simp)
  | succ n ih =>
      intro id h
      rw [recursionCheck_succ] at h
      cases hl : mapLookup rbac.roles id with
      | none => rw [hl] at h; exact absurd h (by simp)
      | some r =>
          rw [hl] at h
          by_cases hperm : r.Permit p = true
          · exact Grants.direct id r hl hperm
          · simp only [Bool.not_eq_true] at hperm
            simp only [hperm, Bool.false_eq_true, if_false] at h
            obtain ⟨pid, hmem, hg⟩ := recursionCheckLoop_sound_of rbac p
              (fun id h => ih id h) _ h
            exact Grants.parent id r pid hl hmem hg

/-! ## Completeness: a defined result is `true` whenever a grant is reachable -/

theorem grants_present {rbac : RBAC K P} {p : P} {id : K}
    (h : Grants rbac p id) : rbac.present id = true := by
  cases h with
  | direct id r hl _ => simp [present, hl]
  | parent id r pid hl _ _ => simp [present, hl]

theorem recursionCheckLoop_false (rbac : RBAC K P)
    (check : K → Option Bool) :
    ∀ l, recursionCheckLoop rbac check l = some false →
      ∀ pid ∈ l, rbac.present pid = true → check pid = some false := by
  intro l
  induction l with
  | nil => intro h pid hmem; exact absurd hmem (by simp)
  | cons q rest ih =>
      intro h pid hmem hp
      rw [recursionCheckLoop_cons] at h
      rcases List.mem_cons.mp hmem with hq | hq
      · subst hq
        rw [if_pos hp] at h
        cases hrc : check pid with
        | none => rw [hrc] at h; exact absurd h (by simp)
        | some bb =>
            rw [hrc] at h
            cases bb with
            | true => exact absurd h (by simp)
            | false => rfl
      · by_cases hq' : rbac.present q
        · rw [if_pos hq'] at h
          cases hrc : check q with
          | none => rw [hrc] at h; exact absurd h (by simp)
          | some bb =>
              rw [hrc] at h
              cases bb with
              | true => exact absurd h (by simp)
              | false => exact ih (by simpa using h) pid hq hp
        · rw [if_neg hq'] at h
          exact ih h pid hq hp

theorem recursionCheck_complete (rbac : RBAC K P) (p : P) {id : K}
    (hg : Grants rbac p id) :
    ∀ n b, recursionCheck rbac p n id = some b → b = true := by
  induction hg with
  | direct id r hl hperm =>
      intro n b h
      cases n with
      | zero => rw [recursionCheck_zero] at h; exact absurd h (by simp)
      | succ n =>
          rw [recursionCheck_succ, hl] at h
          simp only [hperm, if_true] at h
          simpa using h.symm
  | parent id r pid hl hmem hgp ih =>
      intro n b h
      cases n with
      | zero => rw [recursionCheck_zero] at h; exact absurd h (by simp)
      | succ n =>
          rw [recursionCheck_succ, hl] at h
          by_cases hperm : r.Permit p = true
          · simp only [hperm, if_true] at h
            simpa using h.symm
          · simp only [Bool.not_eq_true] at hperm
            simp only [hperm, Bool.false_eq_true, if_false] at h
            cases b with
            | true => rfl
            | false =>
                have hfalse := recursionCheckLoop_false rbac _ _ h pid hmem
                  (grants_present hgp)
                exact absurd (ih n false hfalse) (by simp)

/-! ## Termination on acyclic reachable subgraphs -/

theorem recursionCheck_uniform_fuel (rbac : RBAC K P) (p : P) :
    ∀ l : List K,
      (∀ pid ∈ l, rbac.present pid = true →
        ∃ n, (recursionCheck rbac p n pid).isSome) →
      ∃ N, ∀ pid ∈ l, rbac.present pid = true →
        (recursionCheck rbac p N pid).isSome := by
  intro l
  induction l with
  | nil => intro _; exact ⟨0, by simp⟩
  | cons pid rest ih =>
      intro h
      obtain ⟨N2, h2⟩ := ih (fun q hq => h q (List.mem_cons_of_mem _ hq))
      by_cases hp : rbac.present pid
      · obtain ⟨n1, h1⟩ := h pid (by simp) hp
        obtain ⟨b1, hb1⟩ := Option.isSome_iff_exists.mp h1
        refine ⟨max n1 N2, ?_⟩
        intro q hq hqp
        rcases List.mem_cons.mp hq with hq' | hq'
        · subst hq'
          rw [recursionCheck_mono_le rbac p (Nat.le_max_left n1 N2) hb1]
          rfl
        · obtain ⟨b2, hb2⟩ := Option.isSome_iff_exists.mp (h2 q hq' hqp)
          rw [recursionCheck_mono_le rbac p (Nat.le_max_right n1 N2) hb2]
          rfl
      · refine ⟨N2, ?_⟩
        intro q hq hqp
        rcases List.mem_cons.mp hq with hq' | hq'
        · subst hq'; exact absurd hqp (by simp [hp])
        · exact h2 q hq' hqp

theorem recursionCheckLoop_total (rbac : RBAC K P)
    {check : K → Option Bool} :
    ∀ l : List K,
      (∀ pid ∈ l, rbac.present pid = true → (check pid).isSome) →
      (recursionCheckLoop rbac check l).isSome := by
  intro l
  induction l with
  | nil => intro _; simp [recursionCheckLoop_nil]
  | cons pid rest ih =>
      intro h
      rw [recursionCheckLoop_cons]
      by_cases hp : rbac.present pid
      · obtain ⟨b1, hb1⟩ := Option.isSome_iff_exists.mp (h pid (by simp) hp)
        rw [if_pos hp, hb1]
        cases b1 with
        | true => rfl
        | false => exact ih (fun q hq => h q (List.mem_cons_of_mem _ hq))
      · rw [if_neg hp]
        exact ih (fun q hq => h q (List.mem_cons_of_mem _ hq))

theorem recursionCheck_total (rbac : RBAC K P) (p : P) {id : K}
    (h : Acc (fun b a => rbac.edge a b) id) :
    ∃ n, (recursionCheck rbac p n id).isSome := by
  induction h with
  | intro x hx ih =>
      cases hl : mapLookup rbac.roles x with
      | none => exact ⟨1, by rw [recursionCheck_succ, hl]; rfl⟩
      | some r =>
          by_cases hperm : r.Permit p = true
          · exact ⟨1, by rw [recursionCheck_succ, hl]; simp [hperm]⟩
          · have hpres : rbac.present x = true := by simp [present, hl]
            obtain ⟨N, hN⟩ := recursionCheck_uniform_fuel rbac p (rbac.parentsOf x)
              (fun pid hmem hpid => ih pid ⟨hpres, hmem, hpid⟩)
            refine ⟨N + 1, ?_⟩
            rw [recursionCheck_succ, hl]
            simp only [Bool.not_eq_true] at hperm
            simp only [hperm, Bool.false_eq_true, if_false]
            exact recursionCheckLoop_total rbac _ hN

/-! ## Accessibility helpers for concrete graphs -/

theorem acc_edge_of_no_parents (rbac : RBAC K P) (x : K)
    (h : rbac.parentsOf x = []) : Acc (fun b a => rbac.edge a b) x := by
  constructor
  intro y hy
  exact absurd (h ▸ hy.2.1) (List.not_mem_nil y)

theorem acc_edge_of_parents (rbac : RBAC K P) (x : K)
    (h : ∀ y ∈ rbac.parentsOf x, Acc (fun b a => rbac.edge a b) y) :
    Acc (fun b a => rbac.edge a b) x :=
  Acc.intro x (fun y hy => h y hy.2.1)

/-! ## Presence helpers -/

theorem present_of_lookup_ne {rbac : RBAC K P} {x : K}
    (h : ¬(mapLookup rbac.roles x).isNone = true) : rbac.present x = true := by
  simp only [present]
  cases hl : mapLookup rbac.roles x with
  | none => rw [hl] at h; simp at h
  | some r => rfl

theorem present_of_all_validated {rbac : RBAC K P} {ps : List K}
    (h : ¬(ps.any fun parent => (mapLookup rbac.roles parent).isNone) = true) :
    ∀ q ∈ ps, rbac.present q = true := by
  intro q hq
  apply present_of_lookup_ne
  intro hc
  exact h (List.any_eq_true.mpr ⟨q, hq, hc⟩)

theorem present_parents_update (rbac : RBAC K P) (m : List (K × List K)) (x : K) :
    RBAC.present { rbac with parents := m } x = rbac.present x := rfl

theorem present_roles_insert {rbac : RBAC K P} {k : K} {r : Role K P} {x : K}
    (h : rbac.present x = true) :
    RBAC.present { rbac with roles := mapInsert rbac.roles k r } x = true := by
  simp only [present] at h ⊢
  by_cases hx : x = k
  · subst hx; simp [mapLookup_mapInsert_self]
  · rwa [mapLookup_mapInsert_ne _ _ _ _ hx]

theorem inv_bucket_mem {rbac : RBAC K P} (h : Inv rbac) {id q : K}
    (hq : q ∈ (mapLookup rbac.parents id).getD []) : rbac.present q = true := by
  cases hl : mapLookup rbac.parents id with
  | none => rw [hl] at hq; simp at hq
  | some b =>
      rw [hl] at hq
      exact (h (id, b) (mapLookup_mem hl)).2 q hq

/-! ## The closure invariant is preserved by every mutation -/

theorem inv_Add (rbac : RBAC K P) (r : Role K P) (h : Inv rbac) :
    Inv (rbac.Add r).2 := by
  unfold Add
  by_cases hc : (mapLookup rbac.roles r.ID).isNone = true
  · rw [if_pos hc]
    intro e he
    obtain ⟨h1, h2⟩ := h e he
    exact ⟨present_roles_insert h1, fun q hq => present_roles_insert (h2 q hq)⟩
  · rw [if_neg hc]
    exact h

theorem inv_SetParents (rbac : RBAC K P) (id : K) (ps : List K) (h : Inv rbac) :
    Inv (rbac.SetParents id ps).2 := by
  unfold SetParents
  by_cases h1 : (mapLookup rbac.roles id).isNone = true
  · rw [if_pos h1]; exact h
  · rw [if_neg h1]
    by_cases h2 : (ps.any fun parent => (mapLookup rbac.roles parent).isNone) = true
    · rw [if_pos h2]; exact h
    · rw [if_neg h2]
      intro e he
      rcases mem_mapInsert he with he' | he'
      · subst he'
        refine ⟨present_of_lookup_ne h1, fun q hq => ?_⟩
        rcases (mem_foldl_setInsert ps _ q).mp hq with hq' | hq'
        · exact inv_bucket_mem h hq'
        · exact present_of_all_validated h2 q hq'
      · obtain ⟨ha, hb⟩ := h e he'
        exact ⟨ha, hb⟩

theorem inv_SetParent (rbac : RBAC K P) (id parent : K) (h : Inv rbac) :
    Inv (rbac.SetParent id parent).2 := by
  unfold SetParent
  by_cases h1 : (mapLookup rbac.roles id).isNone = true
  · rw [if_pos h1]; exact h
  · rw [if_neg h1]
    by_cases h2 : (mapLookup rbac.roles parent).isNone = true
    · rw [if_pos h2]; exact h
    · rw [if_neg h2]
      intro e he
      rcases mem_mapInsert he with he' | he'
      · subst he'
        refine ⟨present_of_lookup_ne h1, fun q hq => ?_⟩
        rcases (mem_setInsert _ _ q).mp hq with hq' | hq'
        · exact inv_bucket_mem h hq'
        · subst hq'; exact present_of_lookup_ne h2
      · exact h e he'

theorem inv_RemoveParent (rbac : RBAC K P) (id parent : K) (h : Inv rbac) :
    Inv (rbac.RemoveParent id parent).2 := by
  unfold RemoveParent
  by_cases h1 : (mapLookup rbac.roles id).isNone = true
  · rw [if_pos h1]; exact h
  · rw [if_neg h1]
    by_cases h2 : (mapLookup rbac.roles parent).isNone = true
    · rw [if_pos h2]; exact h
    · rw [if_neg h2]
      cases hl : mapLookup rbac.parents id with
      | none => exact h
      | some bucket =>
          intro e he
          rcases mem_mapInsert he with he' | he'
          · subst he'
            refine ⟨present_of_lookup_ne h1, fun q hq => ?_⟩
            have hq' := (mem_setErase bucket parent q).mp hq
            exact (h (id, bucket) (mapLookup_mem hl)).2 q hq'.1
          · exact h e he'

theorem inv_Remove (rbac : RBAC K P) (id : K) (h : Inv rbac) :
    Inv (rbac.Remove id).2 := by
  unfold Remove
  by_cases hc : (mapLookup rbac.roles id).isSome = true
  · rw [if_pos hc]
    intro e he
    obtain ⟨e', he', hne, heq⟩ := mem_scrub he
    obtain ⟨h1, h2⟩ := h e' he'
    subst heq
    constructor
    · show (mapLookup (mapErase rbac.roles id) e'.1).isSome = true
      rw [mapLookup_mapErase_ne _ _ _ hne]
      exact h1
    · intro q hq
      have hq' := (mem_setErase e'.2 id q).mp hq
      show (mapLookup (mapErase rbac.roles id) q).isSome = true
      rw [mapLookup_mapErase_ne _ _ _ hq'.2]
      exact h2 q hq'.1
  · rw [if_neg hc]
    exact h

theorem inv_applyAction (rbac : RBAC K P) (a : Action K P) (h : Inv rbac) :
    Inv (applyAction rbac a) := by
  cases a with
  | add r => exact inv_Add rbac r h
  | remove id => exact inv_Remove rbac id h
  | setParents id ps => exact inv_SetParents rbac id ps h
  | setParent id parent => exact inv_SetParent rbac id parent h
  | removeParent id parent => exact inv_RemoveParent rbac id parent h

theorem inv_foldl (acts : List (Action K P)) :
    ∀ rbac : RBAC K P, Inv rbac → Inv (acts.foldl applyAction rbac) := by
  induction acts with
  | nil => intro rbac h; exact h
  | cons a rest ih => intro rbac h; exact ih _ (inv_applyAction rbac a h)

/-! ## More presence helpers and structure-update reductions -/

theorem not_isNone_of_present {rbac : RBAC K P} {x : K}
    (h : rbac.present x = true) : ¬(mapLookup rbac.roles x).isNone = true := by
  intro hc
  simp only [present] at h
  rw [Option.isNone_iff_eq_none.mp hc] at h
  simp at h

theorem isNone_of_absent {rbac : RBAC K P} {x : K}
    (h : rbac.present x = false) : (mapLookup rbac.roles x).isNone = true := by
  simp only [present] at h
  cases hl : mapLookup rbac.roles x with
  | none => rfl
  | some r => rw [hl] at h; simp at h

omit [DecidableEq K] in
@[simp] theorem roles_update_parents (rbac : RBAC K P) (m : List (K × List K)) :
    ({ rbac with parents := m } : RBAC K P).roles = rbac.roles := rfl

omit [DecidableEq K] in
@[simp] theorem parents_update_parents (rbac : RBAC K P) (m : List (K × List K)) :
    ({ rbac with parents := m } : RBAC K P).parents = m := rfl

theorem GetParents_ok {rbac : RBAC K P} {a : K} (h : rbac.present a = true) :
    rbac.GetParents a = .ok (rbac.parentsOf a) := by
  unfold GetParents parentsOf
  rw [if_neg (not_isNone_of_present h)]
  cases mapLookup rbac.parents a <;> rfl

/-! ## Accessibility of the sample engine -/

theorem sampleEngine_acc1 : Acc (fun b a => RBAC.edge sampleEngine a b) 1 :=
  acc_edge_of_no_parents sampleEngine 1 rfl

theorem sampleEngine_acc2 : Acc (fun b a => RBAC.edge sampleEngine a b) 2 := by
  apply acc_edge_of_parents
  intro y hy
  have hmem : y ∈ [1] := hy
  have h1 : y = 1 := by simpa using hmem
  subst h1
  exact sampleEngine_acc1

/-! ## The claims -/

/-- C1: With a nil assertion hook and the parent graph reachable from
`id` acyclic (phrased as accessibility of `id` under the parent-edge
relation `edge`), `IsGranted(id, p, nil)` resolves to a defined Boolean,
and that Boolean is `true` exactly when some role reachable from `id`
via zero or more parent edges — the queried role itself or an ancestor,
every id on the path present in the role store — directly grants `p`
(`Grants`).  In particular a direct grant answers `true` whatever the
parents, and when no reachable role grants, the answer is `false`. -/
theorem isGranted_nil_iff_reachable_grant (rbac : RBAC K P) (id : K) (p : P)
    (hacc : Acc (fun b a => rbac.edge a b) id) :
    ∃ n b, rbac.IsGranted n id p none = some b ∧
      (b = true ↔ Grants rbac p id) := by
  obtain ⟨n, hn⟩ := recursionCheck_total rbac p hacc
  obtain ⟨b, hb⟩ := Option.isSome_iff_exists.mp hn
  refine ⟨n, b, hb, ?_, ?_⟩
  · intro hb'
    subst hb'
    exact recursionCheck_sound rbac p n id hb
  · intro hg
    exact recursionCheck_complete rbac p hg n b hb

/-- Witness for C1: the sample engine is acyclic at role 2 and the
theorem applies there. -/
theorem isGranted_nil_iff_reachable_grant_witness :
    ∃ n b, RBAC.IsGranted sampleEngine n 2 10 none = some b ∧
      (b = true ↔ RBAC.Grants sampleEngine 10 2) :=
  isGranted_nil_iff_reachable_grant sampleEngine 2 10 sampleEngine_acc2

/-- C2: `IsGranted` swallows an unknown role into a denied result: for a
role id absent from the role store and any assertion hook that does not
veto, `IsGranted` answers `some false` (its result carries no error
component at all), while `Get`, `GetParents`, `SetParents`, `SetParent`
and `RemoveParent` all fail with `RoleNotFound` on the same absent id. -/
theorem isGranted_absent_denies_others_error (rbac : RBAC K P) (id : K) (p : P)
    (fuel : Nat) (assert : Option (AssertionFunc K P))
    (habs : mapLookup rbac.roles id = none)
    (hpass : ∀ f, assert = some f → f rbac id p = true) :
    rbac.IsGranted (fuel + 1) id p assert = some false
    ∧ rbac.Get id = .error .roleNotExist
    ∧ rbac.GetParents id = .error .roleNotExist
    ∧ (∀ ps, rbac.SetParents id ps = (some .roleNotExist, rbac))
    ∧ (∀ parent, rbac.SetParent id parent = (some .roleNotExist, rbac))
    ∧ (∀ parent, rbac.RemoveParent id parent = (some .roleNotExist, rbac)) := by
  have hrc : recursionCheck rbac p (fuel + 1) id = some false := by
    rw [recursionCheck_succ, habs]
  refine ⟨?_, ?_, ?_, ?_, ?_, ?_⟩
  · cases assert with
    | none => exact hrc
    | some f =>
        show (if f rbac id p then recursionCheck rbac p (fuel + 1) id else some false) = some false
        rw [hpass f rfl, if_pos rfl]
        exact hrc
  · simp [Get, habs]
  · simp [GetParents, habs]
  · intro ps; simp [SetParents, habs]
  · intro parent; simp [SetParent, habs]
  · intro parent; simp [RemoveParent, habs]

/-- Witness for C2 at the sample engine, absent id 99, with a hook that
always passes. -/
theorem isGranted_absent_denies_others_error_witness :
    RBAC.IsGranted sampleEngine 1 99 10 (some fun _ _ _ => true) = some false
    ∧ RBAC.Get sampleEngine 99 = .error .roleNotExist
    ∧ RBAC.GetParents sampleEngine 99 = .error .roleNotExist
    ∧ (∀ ps, RBAC.SetParents sampleEngine 99 ps = (some .roleNotExist, sampleEngine))
    ∧ (∀ parent, RBAC.SetParent sampleEngine 99 parent = (some .roleNotExist, sampleEngine))
    ∧ (∀ parent, RBAC.RemoveParent sampleEngine 99 parent = (some .roleNotExist, sampleEngine)) :=
  isGranted_absent_denies_others_error sampleEngine 99 10 0
    (some fun _ _ _ => true) rfl (fun f hf => by cases hf; rfl)

/-- C3: the assertion hook is a hard veto evaluated once at the top
level: a hook returning `false` forces the answer `some false` whatever
the graph; a hook returning `true` leaves the answer exactly the
structural resolution `recursionCheck` — which does not receive the hook
as an argument, so no recursion step over the parents can invoke it
again; and the answer depends on the hook only through its single
top-level evaluation. -/
theorem assert_hook_semantics (rbac : RBAC K P) (fuel : Nat) (id : K) (p : P)
    (f : AssertionFunc K P) :
    (f rbac id p = false → rbac.IsGranted fuel id p (some f) = some false)
    ∧ (f rbac id p = true →
        rbac.IsGranted fuel id p (some f) = recursionCheck rbac p fuel id)
    ∧ (∀ g : AssertionFunc K P, f rbac id p = g rbac id p →
        rbac.IsGranted fuel id p (some f) = rbac.IsGranted fuel id p (some g)) := by
  refine ⟨?_, ?_, ?_⟩
  · intro hf
    show (if f rbac id p then recursionCheck rbac p fuel id else some false) = some false
    rw [hf]
    simp
  · intro hf
    show (if f rbac id p then recursionCheck rbac p fuel id else some false)
      = recursionCheck rbac p fuel id
    rw [hf]
    simp
  · intro g hg
    show (if f rbac id p then recursionCheck rbac p fuel id else some false)
      = (if g rbac id p then recursionCheck rbac p fuel id else some false)
    rw [hg]

/-- Witness for C3: on the sample engine, a vetoing hook denies a
structurally granted permission, and a passing hook reproduces the
structural result. -/
theorem assert_hook_semantics_witness :
    RBAC.IsGranted sampleEngine 2 2 10 (some fun _ _ _ => false) = some false
    ∧ RBAC.IsGranted sampleEngine 2 2 10 (some fun _ _ _ => true)
      = RBAC.recursionCheck sampleEngine 10 2 2 :=
  ⟨(assert_hook_semantics sampleEngine 2 2 10 (fun _ _ _ => false)).1 rfl,
   (assert_hook_semantics sampleEngine 2 2 10 (fun _ _ _ => true)).2.1 rfl⟩

/-- C6: when the parent graph reachable from `id` is acyclic
(accessibility of `id` under the parent-edge relation), the recursive
resolution terminates: some fuel yields a defined answer and every
larger fuel yields the same answer.  (The source has no cycle guard; on
a cyclic reachable graph every fuel is exhausted, which is the
divergence the spec warns about.) -/
theorem recursionCheck_terminates_of_acyclic (rbac : RBAC K P) (p : P) (id : K)
    (hacc : Acc (fun b a => rbac.edge a b) id) :
    ∃ n b, recursionCheck rbac p n id = some b ∧
      ∀ m, n ≤ m → recursionCheck rbac p m id = some b := by
  obtain ⟨n, hn⟩ := recursionCheck_total rbac p hacc
  obtain ⟨b, hb⟩ := Option.isSome_iff_exists.mp hn
  exact ⟨n, b, hb, fun m hm => recursionCheck_mono_le rbac p hm hb⟩

/-- Witness for C6: the sample engine is acyclic at role 2 and the
theorem applies there. -/
theorem recursionCheck_terminates_of_acyclic_witness :
    ∃ n b, RBAC.recursionCheck sampleEngine 99 n 2 = some b ∧
      ∀ m, n ≤ m → RBAC.recursionCheck sampleEngine 99 m 2 = some b :=
  recursionCheck_terminates_of_acyclic sampleEngine 99 2 sampleEngine_acc2

/-- C4: `Remove(id)` on a present role succeeds and, in the same step,
deletes the role from the store, deletes `id`'s own parent bucket, and
removes `id` from every other role's parent set, so `GetParents` on any
remaining role never lists `id`; on an absent id it fails with
`RoleNotFound` and changes nothing. -/
theorem remove_deletes_and_scrubs (rbac : RBAC K P) (id : K) :
    (rbac.present id = true →
      ∃ rbac', rbac.Remove id = (none, rbac')
        ∧ rbac'.present id = false
        ∧ mapLookup rbac'.parents id = none
        ∧ (∀ a, id ∉ rbac'.parentsOf a)
        ∧ (∀ a, rbac'.present a = true →
            ∃ l, rbac'.GetParents a = .ok l ∧ id ∉ l))
    ∧ (rbac.present id = false → rbac.Remove id = (some .roleNotExist, rbac)) := by
  constructor
  · intro hpres
    refine ⟨⟨mapErase rbac.roles id, scrub rbac.parents id⟩, ?_, ?_, ?_, ?_, ?_⟩
    · unfold Remove
      rw [if_pos (show (mapLookup rbac.roles id).isSome = true from hpres)]
    · show (mapLookup (mapErase rbac.roles id) id).isSome = false
      rw [mapLookup_mapErase_self]
      rfl
    · exact mapLookup_scrub_self rbac.parents id
    · intro a
      by_cases ha : a = id
      · rw [ha]
        show id ∉ (mapLookup (scrub rbac.parents id) id).getD []
        rw [mapLookup_scrub_self]
        simp
      · show id ∉ (mapLookup (scrub rbac.parents id) a).getD []
        rw [mapLookup_scrub_ne rbac.parents id a ha]
        cases hl : mapLookup rbac.parents a with
        | none => simp
        | some ps => simp [mem_setErase]
    · intro a ha
      simp only [present] at ha
      have hne : a ≠ id := by
        intro hh
        rw [hh, mapLookup_mapErase_self] at ha
        simp at ha
      have hnn : ¬((mapLookup (mapErase rbac.roles id) a).isNone = true) := by
        cases hx : mapLookup (mapErase rbac.roles id) a with
        | none => rw [hx] at ha; simp at ha
        | some r => simp
      unfold GetParents
      rw [if_neg hnn]
      show ∃ l, (match mapLookup (scrub rbac.parents id) a with
        | none => Except.ok []
        | some ids => Except.ok ids) = Except.ok l ∧ id ∉ l
      rw [mapLookup_scrub_ne rbac.parents id a hne]
      cases hl : mapLookup rbac.parents a with
      | none => exact ⟨[], rfl, by simp⟩
      | some ps => exact ⟨setErase ps id, rfl, by simp [mem_setErase]⟩
  · intro habs
    have hc : ¬(mapLookup rbac.roles id).isSome = true := by
      simp [show (mapLookup rbac.roles id).isSome = false from habs]
    unfold Remove
    rw [if_neg hc]

/-- Witness for C4: removing role 1 from the sample engine scrubs it
from role 2's parent set. -/
theorem remove_deletes_and_scrubs_witness :
    ∃ rbac', RBAC.Remove sampleEngine 1 = (none, rbac')
      ∧ RBAC.present rbac' 1 = false
      ∧ mapLookup (RBAC.parents rbac') 1 = none
      ∧ (∀ a, 1 ∉ RBAC.parentsOf rbac' a)
      ∧ (∀ a, RBAC.present rbac' a = true →
          ∃ l, RBAC.GetParents rbac' a = .ok l ∧ 1 ∉ l) :=
  (remove_deletes_and_scrubs sampleEngine 1).1 rfl

/-- C5: every structural mutation that reports an error returns the
state unchanged; in particular `SetParents` validates the subject and
all parents before inserting anything, so a batch with one missing
parent adds no edge, and a second `Add` of a taken id fails with
`RoleExists` leaving the originally stored role definition in place. -/
theorem mutation_error_leaves_state (rbac : RBAC K P) :
    (∀ r e rbac', rbac.Add r = (some e, rbac') → rbac' = rbac)
    ∧ (∀ id e rbac', rbac.Remove id = (some e, rbac') → rbac' = rbac)
    ∧ (∀ id ps e rbac', rbac.SetParents id ps = (some e, rbac') → rbac' = rbac)
    ∧ (∀ id parent e rbac', rbac.SetParent id parent = (some e, rbac') → rbac' = rbac)
    ∧ (∀ id parent e rbac', rbac.RemoveParent id parent = (some e, rbac') → rbac' = rbac)
    ∧ (∀ id ps q, rbac.present id = true → q ∈ ps → rbac.present q = false →
        rbac.SetParents id ps = (some .roleNotExist, rbac))
    ∧ (∀ r, rbac.present r.ID = true → rbac.Add r = (some .roleExist, rbac)) := by
  refine ⟨?_, ?_, ?_, ?_, ?_, ?_, ?_⟩
  · intro r e rbac' h
    unfold Add at h
    by_cases hc : (mapLookup rbac.roles r.ID).isNone = true
    · rw [if_pos hc] at h
      exact absurd h (by simp)
    · rw [if_neg hc] at h
      injection h with h1 h2
      exact h2.symm
  · intro id e rbac' h
    unfold Remove at h
    by_cases hc : (mapLookup rbac.roles id).isSome = true
    · rw [if_pos hc] at h
      exact absurd h (by simp)
    · rw [if_neg hc] at h
      injection h with h1 h2
      exact h2.symm
  · intro id ps e rbac' h
    unfold SetParents at h
    by_cases h1 : (mapLookup rbac.roles id).isNone = true
    · rw [if_pos h1] at h
      injection h with ha hb
      exact hb.symm
    · rw [if_neg h1] at h
      by_cases h2 : (ps.any fun parent => (mapLookup rbac.roles parent).isNone) = true
      · rw [if_pos h2] at h
        injection h with ha hb
        exact hb.symm
      · rw [if_neg h2] at h
        exact absurd h (by simp)
  · intro id parent e rbac' h
    unfold SetParent at h
    by_cases h1 : (mapLookup rbac.roles id).isNone = true
    · rw [if_pos h1] at h
      injection h with ha hb
      exact hb.symm
    · rw [if_neg h1] at h
      by_cases h2 : (mapLookup rbac.roles parent).isNone = true
      · rw [if_pos h2] at h
        injection h with ha hb
        exact hb.symm
      · rw [if_neg h2] at h
        exact absurd h (by simp)
  · intro id parent e rbac' h
    unfold RemoveParent at h
    by_cases h1 : (mapLookup rbac.roles id).isNone = true
    · rw [if_pos h1] at h
      injection h with ha hb
      exact hb.symm
    · rw [if_neg h1] at h
      by_cases h2 : (mapLookup rbac.roles parent).isNone = true
      · rw [if_pos h2] at h
        injection h with ha hb
        exact hb.symm
      · rw [if_neg h2] at h
        cases hl : mapLookup rbac.parents id with
        | none => rw [hl] at h; exact absurd h (by simp)
        | some bucket => rw [hl] at h; exact absurd h (by simp)
  · intro id ps q hid hq hqf
    unfold SetParents
    rw [if_neg (not_isNone_of_present hid)]
    rw [if_pos (List.any_eq_true.mpr ⟨q, hq, isNone_of_absent hqf⟩)]
  · intro r hpres
    unfold Add
    rw [if_neg (not_isNone_of_present hpres)]

/-- Witness for C5: on the sample engine, a batch with the missing
parent 99 adds nothing, and re-adding role 1 errors with the state
intact. -/
theorem mutation_error_leaves_state_witness :
    RBAC.SetParents sampleEngine 1 [99] = (some .roleNotExist, sampleEngine)
    ∧ RBAC.Add sampleEngine adminRole = (some .roleExist, sampleEngine) :=
  ⟨(mutation_error_leaves_state sampleEngine).2.2.2.2.2.1 1 [99] 99 rfl (by simp) rfl,
   (mutation_error_leaves_state sampleEngine).2.2.2.2.2.2 adminRole rfl⟩

/-- C7: a successful `SetParents(id, parents)` makes `id`'s parent set
the union of its previous parent set and the given list — an additive
merge, not a replace-all: previously set parents not in the new list
remain, and every listed id becomes a parent. -/
theorem setParents_additive_union (rbac : RBAC K P) (id : K) (ps : List K)
    (h1 : rbac.present id = true)
    (h2 : ∀ q ∈ ps, rbac.present q = true) :
    ∃ rbac', rbac.SetParents id ps = (none, rbac')
      ∧ ∀ k, (k ∈ rbac'.parentsOf id ↔ k ∈ rbac.parentsOf id ∨ k ∈ ps) := by
  have c2 : ¬(ps.any fun parent => (mapLookup rbac.roles parent).isNone) = true := by
    intro hc
    obtain ⟨q, hq, hqn⟩ := List.any_eq_true.mp hc
    have hfalse : rbac.present q = false := by
      simp only [present, Option.isNone_iff_eq_none.mp hqn]
      rfl
    rw [h2 q hq] at hfalse
    simp at hfalse
  refine ⟨{ rbac with
      parents := mapInsert rbac.parents id
        (ps.foldl setInsert ((mapLookup rbac.parents id).getD [])) }, ?_, ?_⟩
  · unfold SetParents
    rw [if_neg (not_isNone_of_present h1), if_neg c2]
  · intro k
    show k ∈ (mapLookup (mapInsert rbac.parents id
      (ps.foldl setInsert ((mapLookup rbac.parents id).getD []))) id).getD [] ↔ _
    rw [mapLookup_mapInsert_self]
    show k ∈ ps.foldl setInsert ((mapLookup rbac.parents id).getD []) ↔ _
    rw [mem_foldl_setInsert]
    exact Iff.rfl

/-- Witness for C7: merging `[3]` into role 2's parents on the sample
engine keeps the old parent 1 and adds 3. -/
theorem setParents_additive_union_witness :
    ∃ rbac', RBAC.SetParents sampleEngine 2 [3] = (none, rbac')
      ∧ ∀ k, (k ∈ RBAC.parentsOf rbac' 2 ↔
          k ∈ RBAC.parentsOf sampleEngine 2 ∨ k ∈ [3]) :=
  setParents_additive_union sampleEngine 2 [3] rfl
    (fun q hq => by
      have : q = 3 := by simpa using hq
      subst this
      rfl)

/-- C8: for existing roles A and B with A initially parentless,
`SetParent(A, B)` followed by `RemoveParent(A, B)` leaves
`GetParents(A)` returning an empty result with no error; and
`RemoveParent` succeeds whenever both ids exist, even if the edge was
never present. -/
theorem setParent_removeParent_roundtrip (rbac : RBAC K P) (A B : K)
    (hA : rbac.present A = true) (hB : rbac.present B = true)
    (h0 : rbac.parentsOf A = []) :
    ((rbac.SetParent A B).2.RemoveParent A B).2.GetParents A = .ok []
    ∧ (∀ id parent, rbac.present id = true → rbac.present parent = true →
        (rbac.RemoveParent id parent).1 = none) := by
  constructor
  · have hc1 := not_isNone_of_present hA
    have hc2 := not_isNone_of_present hB
    have hbucket : (mapLookup rbac.parents A).getD [] = [] := h0
    have hsi : setInsert ([] : List K) B = [B] := by simp [setInsert]
    have hse : setErase [B] B = ([] : List K) := by simp [setErase]
    have hset : rbac.SetParent A B =
        (none, { rbac with parents := mapInsert rbac.parents A [B] }) := by
      unfold SetParent
      rw [if_neg hc1, if_neg hc2, hbucket, hsi]
    have hrem : ({ rbac with parents := mapInsert rbac.parents A [B] } : RBAC K P).RemoveParent A B =
        (none, { rbac with parents := mapInsert (mapInsert rbac.parents A [B]) A [] }) := by
      unfold RemoveParent
      simp only [roles_update_parents, parents_update_parents]
      rw [if_neg hc1, if_neg hc2, mapLookup_mapInsert_self]
      simp [hse]
    rw [hset, hrem]
    rw [GetParents_ok (show RBAC.present
      ({ rbac with parents := mapInsert (mapInsert rbac.parents A [B]) A [] } : RBAC K P) A = true
      from hA)]
    show Except.ok ((mapLookup (mapInsert (mapInsert rbac.parents A [B]) A []) A).getD [])
      = Except.ok []
    rw [mapLookup_mapInsert_self]
    rfl
  · intro id parent hid hparent
    unfold RemoveParent
    rw [if_neg (not_isNone_of_present hid), if_neg (not_isNone_of_present hparent)]
    cases mapLookup rbac.parents id <;> rfl

/-- Witness for C8: on the sample engine with parentless role 3 and
role 1, the round trip leaves role 3 with an empty parent result. -/
theorem setParent_removeParent_roundtrip_witness :
    ((RBAC.SetParent sampleEngine 3 1).2.RemoveParent 3 1).2.GetParents 3 = .ok []
    ∧ (∀ id parent, RBAC.present sampleEngine id = true →
        RBAC.present sampleEngine parent = true →
        (RBAC.RemoveParent sampleEngine id parent).1 = none) :=
  setParent_removeParent_roundtrip sampleEngine 3 1 rfl rfl rfl

/-- C10: in every engine state reachable from a freshly constructed
engine by any sequence of public operations (the reads do not mutate, so
a trace of the five mutations covers all sequences), every role
identifier appearing in the parent graph — as a bucket key or as a
member of any parent set — is present in the role store: no stale edge
or dangling bucket ever refers to a removed role. -/
theorem run_satisfies_inv (acts : List (Action K P)) : Inv (run acts) :=
  inv_foldl acts New (fun e he => absurd he (List.not_mem_nil e))

end RBAC

/-- C9 counterexample: the claim says `Get`, `GetParents` and
`IsGranted` all acquire only the shared (read) lock, but in the source
`GetParents` calls `rbac.mutex.Lock()` — the exclusive write lock — so
the three pure reads do not all take the read lock. -/
theorem getParents_takes_write_lock :
    ¬(lockOf .get = .read ∧ lockOf .getParents = .read ∧
      lockOf .isGranted = .read) := by
  decide

/-- C9 amended: of the three pure reads, `Get` and `IsGranted` acquire
the shared (read) lock for their duration, while `GetParents` acquires
the exclusive (write) lock; so `Get` and `IsGranted` calls can proceed
concurrently with each other while excluding writers, but a `GetParents`
call excludes every other operation, readers included. -/
theorem lock_kinds_of_reads :
    lockOf .get = .read ∧ lockOf .isGranted = .read ∧
      lockOf .getParents = .write := by
  decide

end Gorbac
